import Mathlib

/-!
# Verification of the rust-git core

A shallow embedding of the `rust-git` repository (a minimal version-control
engine: content-addressed object store, flat staging index, commit/branch
graph, working-tree synchronizer) together with proofs about the claims of
its specification.

Modeling conventions:

* File and object contents ("bytes") are modeled as Lean `String`s.
* The filesystem is explicit: `RepoState` carries the working tree (a map
  from repository-relative path to content), the raw bytes of the
  `.rust-git/index` file, the `HEAD` file, the branch ref files, the commit
  log file and the object store.  `Option String` models a file that may be
  absent.  I/O never fails spontaneously in the model; a Rust panic
  (`str::split_at` out of bounds, `Option::unwrap` on `None`) is modeled as
  the distinguished error `RErr.panicked`.
* The external libraries used by the source, SHA-1 (`sha1` crate) and JSON
  (`serde_json`), are abstracted into a parameter record `Ext`: a digest
  function `h`, the serializers `ser` (`to_string`) / `serPretty`
  (`to_string_pretty`) and the deserializer `deser`
  (`from_str`/`from_slice`).  Facts the source relies on (digests are
  nonempty hex, serialization round-trips, no digest collisions among the
  concretely stored objects) appear as explicit hypotheses of the theorems
  and are discharged on an executable instance `ext0` in the witnesses.
* `serde_json::Value` is modeled by the inductive `Json`.
* Each command is a pure function `RepoState → Except RErr α × RepoState`:
  the second component is the state after the command, including partial
  effects performed before an error.
-/

set_option linter.unusedVariables false
set_option maxRecDepth 4096

namespace RustGit

/-- Raw file/object contents. -/
abbrev Bytes := String

/-- Model of `serde_json::Value` (the variants the source uses). -/
inductive Json where
  | null
  | num (n : Int)
  | str (s : String)
  | arr (xs : List Json)
  | obj (fields : List (String × Json))

/-- The external collaborators (SHA-1 and serde_json) as abstract functions. -/
structure Ext where
  h : Bytes → String
  ser : Json → String
  serPretty : Json → String
  deser : String → Option Json

/-- Error kinds.  `panicked` marks a Rust panic (not a returned error). -/
inductive RErr where
  | notInitialized
  | pathNotFound
  | ioMissing
  | malformedIndex
  | emptyIndex
  | notStaged
  | objectMissing
  | branchNotFound
  | branchExists
  | invalidName
  | noCommits
  | treeFormat
  | pathFormat
  | hashFormat
  | noTreeLine
  | pathNotInCommit
  | panicked
  deriving DecidableEq, Repr

/-! ## Generic association-list operations (model of keyed files/maps) -/

/-- First-match lookup in an association list. -/
def lookupA {κ β : Type} [DecidableEq κ] : List (κ × β) → κ → Option β
  | [], _ => none
  | (k, v) :: rest, key => if key = k then some v else lookupA rest key

/-- Overwrite the first binding of `key`, or append a new binding: the
effect of `fs::write` on a keyed file, and of map insertion. -/
def setAssoc {κ β : Type} [DecidableEq κ] : List (κ × β) → κ → β → List (κ × β)
  | [], key, v => [(key, v)]
  | (k, w) :: rest, key, v =>
    if key = k then (k, v) :: rest else (k, w) :: setAssoc rest key v

theorem lookupA_setAssoc_self {κ β : Type} [DecidableEq κ]
    (es : List (κ × β)) (k : κ) (v : β) :
    lookupA (setAssoc es k v) k = some v := by
  induction es with
  | nil => simp [setAssoc, lookupA]
  | cons p rest ih =>
    obtain ⟨k', w⟩ := p
    by_cases hk : k = k' <;> simp [setAssoc, lookupA, hk, ih]

theorem lookupA_setAssoc_ne {κ β : Type} [DecidableEq κ]
    (es : List (κ × β)) (k k' : κ) (v : β) (h : k ≠ k') :
    lookupA (setAssoc es k' v) k = lookupA es k := by
  induction es with
  | nil => simp [setAssoc, lookupA, h]
  | cons p rest ih =>
    obtain ⟨k'', w⟩ := p
    by_cases hk : k' = k''
    · subst hk
      simp [setAssoc, lookupA, h]
    · by_cases hk2 : k = k'' <;> simp [setAssoc, lookupA, hk, hk2, ih]

theorem setAssoc_setAssoc_self {κ β : Type} [DecidableEq κ]
    (es : List (κ × β)) (k : κ) (v : β) :
    setAssoc (setAssoc es k v) k v = setAssoc es k v := by
  induction es with
  | nil => simp [setAssoc]
  | cons p rest ih =>
    obtain ⟨k', w⟩ := p
    by_cases hk : k = k' <;> simp [setAssoc, hk, ih]

theorem isSome_lookupA_setAssoc {κ β : Type} [DecidableEq κ]
    (es : List (κ × β)) (k k' : κ) (v' : β)
    (h : (lookupA es k).isSome = true) :
    (lookupA (setAssoc es k' v') k).isSome = true := by
  by_cases hk : k = k'
  · subst hk; simp [lookupA_setAssoc_self]
  · rw [lookupA_setAssoc_ne es k k' v' hk]; exact h

theorem lookupA_eq_none_forall {κ β : Type} [DecidableEq κ]
    (es : List (κ × β)) (k : κ) (h : lookupA es k = none) :
    ∀ e ∈ es, e.1 ≠ k := by
  induction es with
  | nil => intro e he; cases he
  | cons p rest ih =>
    obtain ⟨k', w⟩ := p
    intro e he
    by_cases hk : k = k'
    · subst hk; simp [lookupA] at h
    · simp [lookupA, hk] at h
      rcases List.mem_cons.mp he with he | he
      · subst he; simpa using fun hh => hk hh.symm
      · exact ih h e he

/-! ## Character-list helpers (models of Rust `str` operations) -/

/-- Split a character list at every occurrence of `c` (model of
`str::lines` for `c = '\n'`; the pieces do not contain `c`). -/
def splitOnCh (c : Char) : List Char → List (List Char)
  | [] => [[]]
  | a :: rest =>
    match splitOnCh c rest with
    | [] => [[]]
    | l :: ls => if a = c then [] :: l :: ls else (a :: l) :: ls

/-- Model of Rust `str::trim` on the character list. -/
def trimL (l : List Char) : List Char :=
  ((l.dropWhile Char.isWhitespace).reverse.dropWhile Char.isWhitespace).reverse

/-- Fuel-indexed worker for `dropPrefixAll`. -/
def dropPreFuel (pre : List Char) : Nat → List Char → List Char
  | 0, l => l
  | n + 1, l =>
    if pre ≠ [] ∧ pre.isPrefixOf l then dropPreFuel pre n (l.drop pre.length)
    else l

/-- Model of Rust `str::trim_start_matches`: repeatedly strip the pattern
`pre` from the front.  `l.length` steps of fuel always suffice because each
successful step removes at least one character. -/
def dropPrefixAll (pre l : List Char) : List Char :=
  dropPreFuel pre l.length l

theorem isPrefixOf_append_self {α : Type} [DecidableEq α] (l r : List α) :
    l.isPrefixOf (l ++ r) = true := by
  induction l with
  | nil => simp [List.isPrefixOf]
  | cons a as ih => simp [List.isPrefixOf, ih]

theorem isPrefixOf_nonempty_nil {α : Type} [DecidableEq α]
    (a : α) (as : List α) : (a :: as).isPrefixOf ([] : List α) = false := by
  simp [List.isPrefixOf]

/-- The fuel of `dropPreFuel` is irrelevant once it is at least the length
of the input. -/
theorem dropPreFuel_fuel_irrel (pre : List Char) :
    ∀ (n₁ : Nat) (l : List Char), l.length ≤ n₁ →
      ∀ (n₂ : Nat), l.length ≤ n₂ →
        dropPreFuel pre n₁ l = dropPreFuel pre n₂ l := by
  intro n₁
  induction n₁ with
  | zero =>
    intro l hl n₂ _
    have : l = [] := List.length_eq_zero.mp (Nat.le_zero.mp hl)
    subst this
    cases n₂ with
    | zero => rfl
    | succ m =>
      cases pre with
      | nil => simp [dropPreFuel]
      | cons a as => simp [dropPreFuel, isPrefixOf_nonempty_nil]
  | succ n ih =>
    intro l hl n₂ hl₂
    cases n₂ with
    | zero =>
      have : l = [] := List.length_eq_zero.mp (Nat.le_zero.mp hl₂)
      subst this
      cases pre with
      | nil => simp [dropPreFuel]
      | cons a as => simp [dropPreFuel, isPrefixOf_nonempty_nil]
    | succ m =>
      by_cases hc : pre ≠ [] ∧ pre.isPrefixOf l
      · have hpre : 1 ≤ pre.length := by
          cases pre with
          | nil => exact absurd rfl hc.1
          | cons a as => simp
        have hdrop : (l.drop pre.length).length ≤ n := by
          have := List.length_drop pre.length l
          omega
        have hdrop₂ : (l.drop pre.length).length ≤ m := by
          by_cases hlen : pre.length ≤ l.length
          · have := List.length_drop pre.length l
            have hlpos : 1 ≤ l.length := le_trans hpre hlen
            omega
          · have := List.length_drop pre.length l
            omega
        simp only [dropPreFuel, if_pos hc]
        exact ih (l.drop pre.length) hdrop m hdrop₂
      · simp only [dropPreFuel, if_neg hc]

theorem dropPrefixAll_of_neg (pre l : List Char)
    (h : ¬(pre ≠ [] ∧ pre.isPrefixOf l)) : dropPrefixAll pre l = l := by
  unfold dropPrefixAll
  cases hn : l.length with
  | zero => rfl
  | succ m => simp only [dropPreFuel, if_neg h]

theorem dropPrefixAll_append (pre r : List Char) (hpre : pre ≠ []) :
    dropPrefixAll pre (pre ++ r) = dropPrefixAll pre r := by
  have hlen : (pre ++ r).length = pre.length + r.length := List.length_append pre r
  have hpos : 1 ≤ pre.length := by
    cases pre with
    | nil => exact absurd rfl hpre
    | cons a as => simp
  unfold dropPrefixAll
  cases hn : (pre ++ r).length with
  | zero => omega
  | succ m =>
    have hcond : pre ≠ [] ∧ pre.isPrefixOf (pre ++ r) :=
      ⟨hpre, isPrefixOf_append_self pre r⟩
    simp only [dropPreFuel, if_pos hcond]
    rw [List.drop_left]
    exact dropPreFuel_fuel_irrel pre m r (by omega) r.length le_rfl

/-- Splitting at `c` after an occurrence-free chunk followed by `c`. -/
theorem splitOnCh_append_cons (c : Char) (l r : List Char) (h : c ∉ l) :
    splitOnCh c (l ++ c :: r) = l :: splitOnCh c r := by
  induction l with
  | nil =>
    simp only [List.nil_append, splitOnCh]
    cases hs : splitOnCh c r with
    | nil =>
      exfalso
      induction r with
      | nil => simp [splitOnCh] at hs
      | cons a as ihr =>
        simp only [splitOnCh] at hs
        cases hs2 : splitOnCh c as with
        | nil => exact ihr hs2
        | cons x xs => rw [hs2] at hs; by_cases ha : a = c <;> simp [ha] at hs
    | cons x xs => simp
  | cons a as ih =>
    have ha : a ≠ c := fun hh => h (hh ▸ List.mem_cons_self a as)
    have has : c ∉ as := fun hh => h (List.mem_cons_of_mem a hh)
    simp only [List.cons_append, splitOnCh]
    rw [show as.append (c :: r) = as ++ c :: r from rfl, ih has]
    simp [ha]

theorem splitOnCh_ne_nil (c : Char) (l : List Char) : splitOnCh c l ≠ [] := by
  induction l with
  | nil => simp [splitOnCh]
  | cons a as ih =>
    simp only [splitOnCh]
    cases hs : splitOnCh c as with
    | nil => exact absurd hs ih
    | cons x xs => by_cases ha : a = c <;> simp [ha]

/-! ## Object store (`src/utils/hash.rs`) -/

/-- On-disk key of an object: the digest split after its first two
characters (`hash.split_at(2)` in the source: bucket directory name and
entry file name). -/
def objKey (hash : String) : List Char × List Char :=
  (hash.data.take 2, hash.data.drop 2)

/-- The `.rust-git/objects` directory: the set of bucket directories that
exist, and the entry files, keyed by (bucket, name). -/
structure ObjStore where
  dirs : List String
  entries : List ((List Char × List Char) × Bytes)

/-- `store_object` from `src/utils/hash.rs`: split the digest after two
characters (a Rust panic if it is shorter), create the bucket directory if
absent, write the bytes unconditionally. -/
def store_object (hash : String) (content : Bytes) (st : ObjStore) :
    Except RErr ObjStore :=
  if hash.length < 2 then .error .panicked
  else
    let dirPart := String.mk (hash.data.take 2)
    let dirs := if st.dirs.contains dirPart then st.dirs else dirPart :: st.dirs
    .ok { dirs := dirs, entries := setAssoc st.entries (objKey hash) content }

/-- `read_object` from `src/utils/hash.rs`: the same unconditional
`split_at(2)` (panic on a digest shorter than two characters), then read
the entry file. -/
def read_object (hash : String) (st : ObjStore) : Except RErr Bytes :=
  if hash.length < 2 then .error .panicked
  else
    match lookupA st.entries (objKey hash) with
    | some b => .ok b
    | none => .error .objectMissing

theorem objKey_inj (h₁ h₂ : String) (h : objKey h₁ = objKey h₂) : h₁ = h₂ := by
  unfold objKey at h
  have h1 := congrArg Prod.fst h
  have h2 := congrArg Prod.snd h
  simp only at h1 h2
  have : h₁.data = h₂.data := by
    calc h₁.data = h₁.data.take 2 ++ h₁.data.drop 2 := (List.take_append_drop 2 h₁.data).symm
    _ = h₂.data.take 2 ++ h₂.data.drop 2 := by rw [h1, h2]
    _ = h₂.data := List.take_append_drop 2 h₂.data
  cases h₁; cases h₂
  exact congrArg String.mk (by simpa using this)

/-- `parse_commit` from `src/utils/hash.rs`: find the first line starting
with `"tree "`, strip that pattern from the front, trim. -/
def parse_commit (content : Bytes) : Except RErr String :=
  match (splitOnCh '\n' content.data).find? (fun l => ("tree ".data).isPrefixOf l) with
  | none => .error .noTreeLine
  | some l => .ok (String.mk (trimL (dropPrefixAll ("tree ".data) l)))

/-! ## JSON values (`serde_json::Value` operations used by the source) -/

/-- Immutable indexing `value["key"]`: on an object, the field or `Null`;
on anything else, `Null`. -/
def jGet (j : Json) (k : String) : Json :=
  match j with
  | .obj fs => (lookupA fs k).getD .null
  | _ => .null

/-- `Value::as_str`. -/
def jAsStr : Json → Option String
  | .str s => some s
  | _ => none

/-- The coercion both `add` and `rm` apply: a value that is not an array is
replaced by the empty array. -/
def coerceArr : Json → List Json
  | .arr es => es
  | _ => []

/-- Mutable indexing assignment `value["key"] = v`: insert/update on an
object, auto-vivify `Null`.  On other variants serde panics; those cases
are unreachable at the call site (the entry was already matched as an
object holding a string path), and the model leaves the value unchanged. -/
def jSetField (e : Json) (k : String) (v : Json) : Json :=
  match e with
  | .obj fs => .obj (setAssoc fs k v)
  | .null => .obj [(k, v)]
  | other => other

/-! ## Repository state -/

/-- The on-disk state of a repository.  Paths in `worktree` are
repository-relative with `/` separators; `rootAbs` holds the components of
the absolute path of the repository root (used only by the directory-walk
filter of `add`, which the source applies to absolute paths). -/
structure RepoState where
  initialized : Bool
  rootAbs : List String
  worktree : List (String × Bytes)
  indexFile : Option String
  headFile : Option String
  branches : List (String × String)
  logFile : Option String
  store : ObjStore

/-! ## Index file (`src/utils/fs.rs`) -/

/-- `read_index`: `fs::read_to_string(".rust-git/index")` (fails if the
file is missing) then `serde_json::from_str` (fails if it does not
parse). -/
def read_index (E : Ext) (s : RepoState) : Except RErr Json :=
  match s.indexFile with
  | none => .error .ioMissing
  | some c =>
    match E.deser c with
    | none => .error .malformedIndex
    | some j => .ok j

/-- `write_index`: `serde_json::to_string_pretty` then `fs::write`. -/
def write_index (E : Ext) (j : Json) (s : RepoState) : RepoState :=
  { s with indexFile := some (E.serPretty j) }

/-- `normalize_path`: replace every backslash with a forward slash. -/
def normalize_path (p : String) : String :=
  String.mk (p.data.map (fun c => if c = '\\' then '/' else c))

/-! ## Branches and HEAD (`src/utils/fs.rs`) -/

/-- `get_current_branch`: missing `HEAD` means `master`; a `ref: ` line is
stripped of `ref: refs/heads/` and trimmed; any other content means
`master`. -/
def get_current_branch (s : RepoState) : String :=
  match s.headFile with
  | none => "master"
  | some c =>
    if ("ref: ".data).isPrefixOf c.data then
      String.mk (trimL (dropPrefixAll ("ref: refs/heads/".data) c.data))
    else "master"

/-- `list_branches`: the names of the ref files under `refs/heads`; a
missing or empty directory yields `["master"]`. -/
def list_branches (s : RepoState) : List String :=
  if s.branches.isEmpty then ["master"] else s.branches.map (fun b => b.1)

/-- `read_branch_commit`: missing ref file is an error; otherwise its
trimmed content (which is the empty string for an unborn branch). -/
def read_branch_commit (name : String) (s : RepoState) : Except RErr String :=
  match lookupA s.branches name with
  | none => .error .branchNotFound
  | some c => .ok (String.mk (trimL c.data))

/-- `create_branch` from `src/utils/fs.rs`.  Note the order of checks in
the source: the `NoCommits` error (`"暂无提交记录，无法创建分支"`) is
raised only when the `HEAD` *file is missing*; when HEAD points at an
unborn branch the empty commit id is written into the new ref. -/
def create_branch (name : String) (s : RepoState) : Except RErr Unit × RepoState :=
  if name.data.contains '/' || name.data.contains '\\' || name == "" then
    (.error .invalidName, s)
  else if (lookupA s.branches name).isSome then (.error .branchExists, s)
  else
    match s.headFile with
    | none => (.error .noCommits, s)
    | some c =>
      let hc := String.mk (trimL c.data)
      if ("ref: ".data).isPrefixOf hc.data then
        let target := String.mk (trimL (dropPrefixAll ("ref: refs/heads/".data) hc.data))
        match lookupA s.branches target with
        | none => (.error .ioMissing, s)
        | some bc =>
          (.ok (), { s with branches := setAssoc s.branches name (String.mk (trimL bc.data)) })
      else (.ok (), { s with branches := setAssoc s.branches name hc })

/-! ## Staging (`src/commands/add.rs`) -/

/-- A fresh `{"path": p, "hash": h}` entry (`serde_json::json!`). -/
def mkEntry (p h : String) : Json :=
  .obj [("path", .str p), ("hash", .str h)]

/-- The index-array update of `add_single_file`: overwrite the `hash` of
the first entry whose `path` equals `p`, else append a new entry. -/
def stageEntry (p h : String) : List Json → List Json
  | [] => [mkEntry p h]
  | e :: rest =>
    if jAsStr (jGet e "path") = some p then jSetField e "hash" (.str h) :: rest
    else e :: stageEntry p h rest

/-- Number of index entries whose `path` field is the string `p`. -/
def countMatch (p : String) (es : List Json) : Nat :=
  es.countP (fun e => jAsStr (jGet e "path") == some p)

/-- `add_single_file`: hash the file content, store the blob, normalize
the repository-relative path, update-or-append the index entry. -/
def add_single_file (E : Ext) (relPath : String) (content : Bytes)
    (arr : List Json) (st : ObjStore) : Except RErr (List Json × ObjStore) :=
  let fileHash := E.h content
  match store_object fileHash content st with
  | .error e => .error e
  | .ok st' => .ok (stageEntry (normalize_path relPath) fileHash arr, st')

/-- Staging loop over the files produced by the directory walk. -/
def add_files (E : Ext) : List (String × Bytes) → List Json → ObjStore →
    Except RErr (List Json × ObjStore)
  | [], arr, st => .ok (arr, st)
  | (p, content) :: rest, arr, st =>
    match add_single_file E p content arr st with
    | .error e => .error e
    | .ok (arr', st') => add_files E rest arr' st'

/-- Path components of a normalized relative path. -/
def pathCompsS (p : String) : List String :=
  (splitOnCh '/' p.data).map (fun l => String.mk l)

/-- The `WalkDir` filter of `add`, as written in the source:
`e.path().starts_with(".rust-git")` on the *absolute* entry path, i.e.
"the first component of the absolute path is `.rust-git`". -/
def metaHit (s : RepoState) (f : String) : Bool :=
  (s.rootAbs ++ pathCompsS f).head? == some ".rust-git"

/-- Is `f` beneath directory `t` (`t = ""` is the repository root)? -/
def underDir (t f : String) : Bool :=
  t == "" || ((t ++ "/").data).isPrefixOf f.data

/-- The regular files the `WalkDir` loop of `add` stages for directory
target `t`, in working-tree enumeration order, with the source's filter. -/
def walk_files (s : RepoState) (t : String) : List (String × Bytes) :=
  s.worktree.filter (fun e => underDir t e.1 && !(metaHit s e.1))

/-- Does the target exist as a regular file? -/
def is_repo_file (s : RepoState) (t : String) : Bool :=
  (lookupA s.worktree t).isSome

/-- Does the target exist as a directory (some file strictly beneath it)? -/
def is_repo_dir (s : RepoState) (t : String) : Bool :=
  s.worktree.any (fun e => underDir t e.1 && e.1 != t)

/-- `add` from `src/commands/add.rs`, over the repository-relative target
`t` (`""` for the repository root).  Object-store writes performed before
a failing entry are dropped by the model; the only failure the model
retains inside the loop is the short-digest panic, which a real SHA-1
digest never triggers. -/
def add (E : Ext) (t : String) (s : RepoState) : Except RErr Unit × RepoState :=
  if s.initialized = false then (.error .notInitialized, s)
  else if !(is_repo_file s t || is_repo_dir s t) then (.error .pathNotFound, s)
  else
    match read_index E s with
    | .error e => (.error e, s)
    | .ok j =>
      let arr0 := coerceArr j
      match lookupA s.worktree t with
      | some content =>
        match add_single_file E t content arr0 s.store with
        | .error e => (.error e, s)
        | .ok (arr1, st1) =>
          (.ok (), write_index E (.arr arr1) { s with store := st1 })
      | none =>
        match add_files E (walk_files s t) arr0 s.store with
        | .error e => (.error e, s)
        | .ok (arr1, st1) =>
          (.ok (), write_index E (.arr arr1) { s with store := st1 })

/-! ## Unstaging (`src/commands/rm.rs`) -/

/-- The physical deletion step of `rm`: `remove_file` when the path is a
regular file, `remove_dir_all` (the whole subtree) when it is a
directory, nothing when it does not exist. -/
def deleteWorktree (p : String) (wt : List (String × Bytes)) :
    List (String × Bytes) :=
  if (lookupA wt p).isSome then wt.filter (fun e => e.1 != p)
  else if wt.any (fun e => ((p ++ "/").data).isPrefixOf e.1.data) then
    wt.filter (fun e => !(((p ++ "/").data).isPrefixOf e.1.data))
  else wt

/-- `rm`: drop every index entry whose `path` equals `p` exactly; fail
with `NotStaged` (before touching anything) if none matched; otherwise
delete the path from the working tree and persist the updated index. -/
def rm (E : Ext) (p : String) (s : RepoState) : Except RErr Unit × RepoState :=
  if s.initialized = false then (.error .notInitialized, s)
  else
    match read_index E s with
    | .error e => (.error e, s)
    | .ok j =>
      let entries := coerceArr j
      let kept := entries.filter (fun e => !(jAsStr (jGet e "path") == some p))
      let removed := entries.any (fun e => jAsStr (jGet e "path") == some p)
      if removed = false then (.error .notStaged, s)
      else
        (.ok (), write_index E (.arr kept)
          { s with worktree := deleteWorktree p s.worktree })

/-! ## Commits (`src/utils/metadata.rs`, `src/commands/commit.rs`) -/

/-- The commit record returned by `create_commit`. -/
structure Commit where
  id : String
  message : String
  author : String
  timestamp : Int
  tree_hash : String

/-- The part of the commit text after the first line. -/
def commitMeta (ts : Int) (msg : String) : String :=
  "author RustGit <rustgit@example.com> " ++ toString ts ++
    " +0800\ncommitter RustGit <rustgit@example.com> " ++ toString ts ++
    " +0800\n\n" ++ msg

/-- The canonical commit text built by `create_commit`. -/
def commitText (treeHash : String) (ts : Int) (msg : String) : String :=
  "tree " ++ treeHash ++ "\n" ++ commitMeta ts msg

/-- `generate_tree_hash`: re-read the index, serialize it with
`to_string`, hash that text, store it as the tree object. -/
def generate_tree_hash (E : Ext) (s : RepoState) :
    Except RErr (String × RepoState) :=
  match read_index E s with
  | .error e => .error e
  | .ok j =>
    let indexStr := E.ser j
    let treeHash := E.h indexStr
    match store_object treeHash indexStr s.store with
    | .error e => .error e
    | .ok st' => .ok (treeHash, { s with store := st' })

/-- `create_commit`: tree hash, commit text with the current timestamp
(the clock is a parameter of the model), commit id = digest of the text,
store the commit object. -/
def create_commit (E : Ext) (ts : Int) (msg : String) (s : RepoState) :
    Except RErr (Commit × RepoState) :=
  match generate_tree_hash E s with
  | .error e => .error e
  | .ok (treeHash, s₁) =>
    let content := commitText treeHash ts msg
    let commitId := E.h content
    match store_object commitId content s₁.store with
    | .error e => .error e
    | .ok st' =>
      .ok ({ id := commitId, message := msg,
             author := "RustGit <rustgit@example.com>",
             timestamp := ts, tree_hash := treeHash }, { s₁ with store := st' })

/-- The JSON rendering of a commit record used by `save_commit`. -/
def commitJson (c : Commit) : Json :=
  .obj [("id", .str c.id), ("message", .str c.message),
        ("author", .str c.author), ("timestamp", .num c.timestamp),
        ("tree_hash", .str c.tree_hash)]

/-- `save_commit`: append the log entry to `.rust-git/logs/commits`. -/
def save_commit (E : Ext) (c : Commit) (s : RepoState) : RepoState :=
  { s with logFile := some ((s.logFile.getD "") ++ "[" ++ c.id ++ "] " ++
      c.message ++ "\n" ++ E.serPretty (commitJson c) ++ "\n\n") }

/-- `commit` from `src/commands/commit.rs`.  `index.as_array().unwrap()`
panics when the index parses to a non-array value.  The model additionally
returns the commit record (the source prints it). -/
def commit (E : Ext) (ts : Int) (msg : String) (s : RepoState) :
    Except RErr Commit × RepoState :=
  if s.initialized = false then (.error .notInitialized, s)
  else
    match read_index E s with
    | .error e => (.error e, s)
    | .ok j =>
      match j with
      | .arr es =>
        if es.isEmpty then (.error .emptyIndex, s)
        else
          match create_commit E ts msg s with
          | .error e => (.error e, s)
          | .ok (c, s₁) => (.ok c, save_commit E c s₁)
      | _ => (.error .panicked, s)

/-! ## Checkout (`src/commands/checkout.rs`) -/

/-- `parse_tree`: read the tree object and deserialize it. -/
def parse_tree (E : Ext) (treeHash : String) (st : ObjStore) : Except RErr Json :=
  match read_object treeHash st with
  | .error e => .error e
  | .ok c =>
    match E.deser c with
    | some j => .ok j
    | none => .error .treeFormat

/-- The restore loop of `restore_working_dir`: for each tree entry write
the blob to the working tree (parent directories are implicit in the
model).  On error the partially restored working tree is kept. -/
def restoreEntries (entries : List Json) (st : ObjStore)
    (wt : List (String × Bytes)) : Except RErr Unit × List (String × Bytes) :=
  match entries with
  | [] => (.ok (), wt)
  | e :: rest =>
    match jAsStr (jGet e "path") with
    | none => (.error .pathFormat, wt)
    | some relPath =>
      match jAsStr (jGet e "hash") with
      | none => (.error .hashFormat, wt)
      | some fileHash =>
        match read_object fileHash st with
        | .error er => (.error er, wt)
        | .ok content => restoreEntries rest st (setAssoc wt relPath content)

/-- `restore_working_dir`: read the commit object, extract the tree hash,
read and deserialize the tree, restore every entry. -/
def restore_working_dir (E : Ext) (commitId : String) (s : RepoState) :
    Except RErr Unit × RepoState :=
  match read_object commitId s.store with
  | .error e => (.error e, s)
  | .ok commitContent =>
    match parse_commit commitContent with
    | .error e => (.error e, s)
    | .ok treeHash =>
      match parse_tree E treeHash s.store with
      | .error e => (.error e, s)
      | .ok tree =>
        match tree with
        | .arr entries =>
          match restoreEntries entries s.store s.worktree with
          | (res, wt') => (res, { s with worktree := wt' })
        | _ => (.error .treeFormat, s)

/-- `checkout_branch`: no-op when already on the branch; otherwise rewrite
`HEAD` and restore the working tree from the branch's commit id. -/
def checkout_branch (E : Ext) (name : String) (s : RepoState) :
    Except RErr Unit × RepoState :=
  if (list_branches s).contains name = false then (.error .branchNotFound, s)
  else if get_current_branch s = name then (.ok (), s)
  else
    match read_branch_commit name s with
    | .error e => (.error e, s)
    | .ok commitId =>
      let s₁ := { s with headFile := some ("ref: refs/heads/" ++ name) }
      restore_working_dir E commitId s₁

/-- `checkout_file`: restore one path from the current branch's latest
commit. -/
def checkout_file (E : Ext) (p : String) (s : RepoState) :
    Except RErr Unit × RepoState :=
  match read_branch_commit (get_current_branch s) s with
  | .error e => (.error e, s)
  | .ok commitId =>
    match read_object commitId s.store with
    | .error e => (.error e, s)
    | .ok commitContent =>
      match parse_commit commitContent with
      | .error e => (.error e, s)
      | .ok treeHash =>
        match parse_tree E treeHash s.store with
        | .error e => (.error e, s)
        | .ok tree =>
          match tree with
          | .arr entries =>
            match entries.find? (fun e => jAsStr (jGet e "path") == some (normalize_path p)) with
            | none => (.error .pathNotInCommit, s)
            | some entry =>
              match jAsStr (jGet entry "hash") with
              | none => (.error .hashFormat, s)
              | some fileHash =>
                match read_object fileHash s.store with
                | .error e => (.error e, s)
                | .ok content =>
                  (.ok (), { s with worktree := setAssoc s.worktree (normalize_path p) content })
          | _ => (.error .treeFormat, s)

/-- `checkout`: branch names take precedence, otherwise file restore. -/
def checkout (E : Ext) (target : String) (s : RepoState) :
    Except RErr Unit × RepoState :=
  if s.initialized = false then (.error .notInitialized, s)
  else if (list_branches s).contains target then checkout_branch E target s
  else checkout_file E target s

/-! ## An executable instance of the external collaborators

Used only to instantiate witnesses and counterexamples: an injective
hex-output digest and a self-delimiting serializer with a matching
deserializer.  The theorems themselves are stated over an arbitrary
`Ext` whose required behavior appears as hypotheses. -/

/-- Hex digit for a value below 16. -/
def hexDigitC (n : Nat) : Char :=
  Char.ofNat (if n < 10 then 48 + n else 87 + n)

/-- Two hex digits for one character (low byte). -/
def hexPair (c : Char) : List Char :=
  [hexDigitC (c.toNat / 16 % 16), hexDigitC (c.toNat % 16)]

/-- Hex dump of a string. -/
def hexDump (s : String) : String :=
  String.mk (s.data.flatMap hexPair)

/-- Witness digest function: `"aa"` followed by the hex dump, so the
output is nonempty lowercase hex and distinct inputs give distinct
digests. -/
def h0 (s : String) : String :=
  "aa" ++ hexDump s

mutual

/-- Witness serializer for `Json`: length-prefixed, self-delimiting. -/
def serJ : Json → String
  | .null => "n."
  | .num k => "i" ++ toString k ++ "."
  | .str s => "s" ++ toString s.length ++ ":" ++ s
  | .arr xs => "a" ++ toString xs.length ++ ":" ++ serL xs
  | .obj fs => "o" ++ toString fs.length ++ ":" ++ serF fs

/-- Serialize a list of values. -/
def serL : List Json → String
  | [] => ""
  | j :: js => serJ j ++ serL js

/-- Serialize object fields. -/
def serF : List (String × Json) → String
  | [] => ""
  | (k, v) :: fs => "f" ++ toString k.length ++ ":" ++ k ++ serJ v ++ serF fs

end

/-- Leading decimal number of a character list, with the rest. -/
def readNat (l : List Char) : Option (Nat × List Char) :=
  match l.takeWhile Char.isDigit with
  | [] => none
  | ds => some (ds.foldl (fun a c => a * 10 + (c.toNat - 48)) 0, l.dropWhile Char.isDigit)

mutual

/-- Witness deserializer, fuel-indexed. -/
def deJ : Nat → List Char → Option (Json × List Char)
  | 0, _ => none
  | _ + 1, [] => none
  | fuel + 1, c :: rest =>
    if c = 'n' then
      match rest with
      | '.' :: r => some (.null, r)
      | _ => none
    else if c = 's' then
      match readNat rest with
      | some (k, ':' :: r) =>
        if k ≤ r.length then some (.str (String.mk (r.take k)), r.drop k) else none
      | _ => none
    else if c = 'a' then
      match readNat rest with
      | some (k, ':' :: r) =>
        match deL fuel k r with
        | some (xs, r₂) => some (.arr xs, r₂)
        | none => none
      | _ => none
    else if c = 'o' then
      match readNat rest with
      | some (k, ':' :: r) =>
        match deF fuel k r with
        | some (fs, r₂) => some (.obj fs, r₂)
        | none => none
      | _ => none
    else none

/-- Deserialize `k` array elements. -/
def deL : Nat → Nat → List Char → Option (List Json × List Char)
  | _, 0, l => some ([], l)
  | 0, _ + 1, _ => none
  | fuel + 1, k + 1, l =>
    match deJ fuel l with
    | some (j, r) =>
      match deL fuel k r with
      | some (xs, r₂) => some (j :: xs, r₂)
      | none => none
    | none => none

/-- Deserialize `k` object fields. -/
def deF : Nat → Nat → List Char → Option (List (String × Json) × List Char)
  | _, 0, l => some ([], l)
  | 0, _ + 1, _ => none
  | fuel + 1, k + 1, l =>
    match l with
    | 'f' :: r₀ =>
      match readNat r₀ with
      | some (klen, ':' :: r) =>
        if klen ≤ r.length then
          match deJ fuel (r.drop klen) with
          | some (v, r₂) =>
            match deF fuel k r₂ with
            | some (fs, r₃) => some ((String.mk (r.take klen), v) :: fs, r₃)
            | none => none
          | none => none
        else none
      | _ => none
    | _ => none

end

/-- Witness deserializer entry point. -/
def deser0 (s : String) : Option Json :=
  match deJ (s.data.length + 1) s.data with
  | some (j, []) => some j
  | _ => none

/-- The executable instance of the external collaborators used by
witnesses (`to_string` and `to_string_pretty` coincide in it). -/
def ext0 : Ext :=
  { h := h0, ser := serJ, serPretty := serJ, deser := deser0 }

/-! ## Concrete states for witnesses and counterexamples -/

/-- A small initialized repository state with an empty (well-formed)
index. -/
def baseState : RepoState :=
  { initialized := true, rootAbs := ["C:", "repo"], worktree := [],
    indexFile := some "a0:", headFile := some "ref: refs/heads/master",
    branches := [("master", "")], logFile := none,
    store := { dirs := [], entries := [] } }

/-- A freshly initialized repository exactly as `create_repo_dirs` writes
it (`index` holds the literal `[]`, HEAD points at the unborn default
branch `master`). -/
def initState : RepoState :=
  { initialized := true, rootAbs := ["C:", "repo"], worktree := [],
    indexFile := some "[]", headFile := some "ref: refs/heads/master",
    branches := [("master", "")], logFile := none,
    store := { dirs := [], entries := [] } }

/-- State whose index file is missing. -/
def sNoIndex : RepoState := { baseState with indexFile := none }

/-- State whose index file does not deserialize. -/
def sBadIndex : RepoState := { baseState with indexFile := some "oops" }

/-- State whose index file holds valid JSON of a non-array shape. -/
def sNullIndex : RepoState := { baseState with indexFile := some "n." }

/-- State with a single staged entry `dir/a.txt`. -/
def sRm : RepoState :=
  { baseState with indexFile := some (serJ (.arr [mkEntry "dir/a.txt" "aa61"])) }

/-! ## C2 — object-store round-trip and idempotence -/

/-- C2: for every byte sequence `b` (with the digest at least two
characters long, as every SHA-1 hex digest is), `put` succeeds — also when
the bucket directory already exists, since the state `st` is arbitrary —
`get` of the digest returns `b`, and a second identical `put` computes the
same digest (the digest function is pure) and leaves the store exactly
unchanged. -/
theorem object_store_round_trip (E : Ext) (b : Bytes) (st : ObjStore)
    (hlen : 2 ≤ (E.h b).length) :
    ∃ st', store_object (E.h b) b st = .ok st'
      ∧ read_object (E.h b) st' = .ok b
      ∧ store_object (E.h b) b st' = .ok st' := by
  have hnot : ¬ (E.h b).length < 2 := by omega
  refine ⟨{ dirs := if st.dirs.contains (String.mk ((E.h b).data.take 2))
              then st.dirs else String.mk ((E.h b).data.take 2) :: st.dirs,
            entries := setAssoc st.entries (objKey (E.h b)) b }, ?_, ?_, ?_⟩
  · simp [store_object, hnot]
  · simp [read_object, hnot, lookupA_setAssoc_self]
  · by_cases hc : String.mk ((E.h b).data.take 2) ∈ st.dirs <;>
      simp [store_object, hnot, hc, setAssoc_setAssoc_self]

/-- C2 witness: concrete content `"x"` in an empty store. -/
theorem object_store_round_trip_witness :
    ∃ st', store_object (ext0.h "x") "x" { dirs := [], entries := [] } = .ok st'
      ∧ read_object (ext0.h "x") st' = .ok "x"
      ∧ store_object (ext0.h "x") "x" st' = .ok st' :=
  object_store_round_trip ext0 "x" { dirs := [], entries := [] } (by decide)

/-! ## C6 — commit on an empty index -/

/-- C6: `commit` on a state whose index deserializes to the empty array
fails with `EmptyIndex` and leaves the state completely unchanged: no
object is stored, no ref is changed, no log entry is appended. -/
theorem commit_empty_index (E : Ext) (ts : Int) (msg : String)
    (s : RepoState) (c0 : String)
    (hinit : s.initialized = true)
    (hidx : s.indexFile = some c0)
    (hdes : E.deser c0 = some (.arr [])) :
    commit E ts msg s = (.error .emptyIndex, s) := by
  simp [commit, read_index, hinit, hidx, hdes]

/-- C6 witness. -/
theorem commit_empty_index_witness :
    commit ext0 0 "m" baseState = (.error .emptyIndex, baseState) :=
  commit_empty_index ext0 0 "m" baseState "a0:" rfl rfl rfl

/-! ## C7 — unstage on an absent path -/

/-- C7: when no index entry's `path` equals `p` exactly (entries whose
paths merely extend `p` do not count), `rm` fails with `NotStaged` and the
state — in particular the persisted index file — is exactly unchanged. -/
theorem rm_not_staged (E : Ext) (p : String) (s : RepoState)
    (c0 : String) (j0 : Json)
    (hinit : s.initialized = true)
    (hidx : s.indexFile = some c0)
    (hdes : E.deser c0 = some j0)
    (habs : ∀ e ∈ coerceArr j0, jAsStr (jGet e "path") ≠ some p) :
    rm E p s = (.error .notStaged, s) := by
  have hany : (coerceArr j0).any (fun e => jAsStr (jGet e "path") == some p) = false := by
    rw [List.any_eq_false]
    intro e he
    simpa using habs e he
  simp [rm, read_index, hinit, hidx, hdes, hany]

/-- C7 witness: `rm "dir"` with only `dir/a.txt` staged — the
directory-like prefix does not match, the call fails, the state is
unchanged. -/
theorem rm_not_staged_witness :
    rm ext0 "dir" sRm = (.error .notStaged, sRm) :=
  rm_not_staged ext0 "dir" sRm (serJ (.arr [mkEntry "dir/a.txt" "aa61"]))
    (.arr [mkEntry "dir/a.txt" "aa61"]) rfl rfl rfl (by decide)

/-! ## C4 — index load on missing/corrupt file -/

/-- C4 counterexample: `read_index` (the `load()` of the spec) does *not*
return the empty mapping on a missing or unparseable index file — it
fails, at these concrete states. -/
theorem read_index_corrupt_errors :
    read_index ext0 sNoIndex = .error .ioMissing ∧
    read_index ext0 sBadIndex = .error .malformedIndex :=
  ⟨rfl, rfl⟩

/-- C4 amended: `read_index` fails with an error when the index file is
missing, and when its contents do not deserialize; only a file holding
valid JSON of a non-array shape is treated as an empty mapping by the
commands (here: `rm` then reports `NotStaged` on any path, leaving the
state unchanged). -/
theorem read_index_amended (E : Ext) :
    (∀ s : RepoState, s.indexFile = none → read_index E s = .error .ioMissing) ∧
    (∀ (s : RepoState) (c : String), s.indexFile = some c → E.deser c = none →
      read_index E s = .error .malformedIndex) ∧
    (∀ (s : RepoState) (c : String) (j : Json) (p : String),
      s.initialized = true → s.indexFile = some c → E.deser c = some j →
      (∀ es, j ≠ .arr es) → rm E p s = (.error .notStaged, s)) := by
  refine ⟨?_, ?_, ?_⟩
  · intro s h; simp [read_index, h]
  · intro s c h hd; simp [read_index, h, hd]
  · intro s c j p hinit hidx hdes harr
    have hco : coerceArr j = [] := by
      cases j with
      | arr es => exact absurd rfl (harr es)
      | null => rfl
      | num n => rfl
      | str t => rfl
      | obj fs => rfl
    simp [rm, read_index, hinit, hidx, hdes, hco]

/-- C4 witness for the amended statement, at the three concrete states. -/
theorem read_index_amended_witness :
    read_index ext0 sNoIndex = .error .ioMissing ∧
    read_index ext0 sBadIndex = .error .malformedIndex ∧
    rm ext0 "x" sNullIndex = (.error .notStaged, sNullIndex) :=
  ⟨(read_index_amended ext0).1 sNoIndex rfl,
   (read_index_amended ext0).2.1 sBadIndex "oops" rfl rfl,
   (read_index_amended ext0).2.2 sNullIndex "n." .null "x" rfl rfl rfl
     (fun es h => Json.noConfusion h)⟩

/-! ## C3 — create_branch on an unborn branch -/

/-- C3: on a freshly initialized repository (HEAD attached to the unborn
`master`), `create_branch "feature"` does *not* fail with `NoCommits`: it
succeeds and creates the ref holding the empty commit id.  The source's
`NoCommits` error is raised only when the HEAD *file* is missing. -/
theorem create_branch_unborn_ok :
    create_branch "feature" initState =
      (.ok (), { initState with branches := [("master", ""), ("feature", "")] }) :=
  rfl

/-! ## C5 — directory staging and the metadata filter -/

/-- The paths recorded in the persisted index of a state, for reading off
the effect of `add`. -/
def stagedPaths (E : Ext) (s : RepoState) : List String :=
  match s.indexFile with
  | none => []
  | some c =>
    match E.deser c with
    | some (.arr es) => es.filterMap (fun e => jAsStr (jGet e "path"))
    | _ => []

/-- State with a normal file and a file inside the metadata directory. -/
def s5 : RepoState :=
  { baseState with
    worktree := [("a.txt", "hello"), (".rust-git/index", "idxbytes")] }

/-- C5: staging the repository root directory *does* stage the file under
`.rust-git`: the source's filter tests
`e.path().starts_with(".rust-git")` against an absolute path, whose first
component is the filesystem root, so it never matches and the metadata
file ends up as an index entry. -/
theorem add_root_stages_metadata :
    (add ext0 "" s5).1 = .ok () ∧
    stagedPaths ext0 (add ext0 "" s5).2 = ["a.txt", ".rust-git/index"] :=
  ⟨rfl, rfl⟩

/-! ## Entry lemmas for `stageEntry` -/

theorem jAsStr_eq_some (j : Json) (t : String) : jAsStr j = some t ↔ j = .str t := by
  cases j <;> simp [jAsStr]

/-- A matched entry keeps its `path` field when its `hash` is updated. -/
theorem jSetField_path (e : Json) (p h : String)
    (hm : jAsStr (jGet e "path") = some p) :
    jAsStr (jGet (jSetField e "hash" (.str h)) "path") = some p := by
  cases e with
  | obj fs =>
    simp only [jSetField, jGet]
    rw [lookupA_setAssoc_ne fs "path" "hash" (.str h) (by decide)]
    simpa [jGet] using hm
  | null => simp [jGet, jAsStr] at hm
  | num n => simp [jGet, jAsStr] at hm
  | str t => simp [jGet, jAsStr] at hm
  | arr xs => simp [jGet, jAsStr] at hm

/-- A matched entry's `hash` field is the new digest after the update. -/
theorem jSetField_hash (e : Json) (p h : String)
    (hm : jAsStr (jGet e "path") = some p) :
    jAsStr (jGet (jSetField e "hash" (.str h)) "hash") = some h := by
  cases e with
  | obj fs => simp [jSetField, jGet, lookupA_setAssoc_self, jAsStr]
  | null => simp [jGet, jAsStr] at hm
  | num n => simp [jGet, jAsStr] at hm
  | str t => simp [jGet, jAsStr] at hm
  | arr xs => simp [jGet, jAsStr] at hm

theorem countMatch_mkEntry (p h : String) : countMatch p [mkEntry p h] = 1 := by
  simp [countMatch, mkEntry, jGet, jAsStr, lookupA, List.countP, List.countP.go]

/-- C8 core: staging `p` leaves exactly one entry for `p`, whether or not
one was already present (given the index invariant that there is at most
one). -/
theorem countMatch_stageEntry (p h : String) (es : List Json)
    (hc : countMatch p es ≤ 1) :
    countMatch p (stageEntry p h es) = 1 := by
  induction es with
  | nil => simpa [stageEntry] using countMatch_mkEntry p h
  | cons e rest ih =>
    by_cases hm : jAsStr (jGet e "path") = some p
    · have hrest : countMatch p rest = 0 := by
        have : countMatch p (e :: rest) = countMatch p rest + 1 := by
          simp [countMatch, List.countP_cons, hm]
        omega
      have hupd := jSetField_path e p h hm
      simp [stageEntry, hm, countMatch, List.countP_cons, hupd]
      simpa [countMatch] using hrest
    · have hc' : countMatch p rest ≤ 1 := by
        have : countMatch p (e :: rest) = countMatch p rest := by
          simp [countMatch, List.countP_cons, hm]
        omega
      simp [stageEntry, hm, countMatch, List.countP_cons]
      simpa [countMatch] using ih hc'

/-! ## C8 — index path uniqueness under stage_file -/

/-- C8: after `add_single_file` stages path `p`, the index holds exactly
one entry whose path is `p` — update-in-place when one existed, append
when none did — assuming the documented index invariant (at most one
pre-existing entry for `p`) and a digest of hex length (at least two
characters). -/
theorem stage_file_unique (E : Ext) (relPath : String) (content : Bytes)
    (arr : List Json) (st : ObjStore)
    (hlen : 2 ≤ (E.h content).length)
    (hc : countMatch (normalize_path relPath) arr ≤ 1) :
    ∃ arr' st', add_single_file E relPath content arr st = .ok (arr', st') ∧
      countMatch (normalize_path relPath) arr' = 1 := by
  have hnot : ¬ (E.h content).length < 2 := by omega
  refine ⟨stageEntry (normalize_path relPath) (E.h content) arr,
    { dirs := if st.dirs.contains (String.mk ((E.h content).data.take 2))
        then st.dirs else String.mk ((E.h content).data.take 2) :: st.dirs,
      entries := setAssoc st.entries (objKey (E.h content)) content }, ?_,
    countMatch_stageEntry _ _ _ hc⟩
  simp [add_single_file, store_object, hnot]

/-- C8 witness: restaging an already-staged path. -/
theorem stage_file_unique_witness :
    ∃ arr' st',
      add_single_file ext0 "a.txt" "new" [mkEntry "a.txt" "aaff"]
        { dirs := [], entries := [] } = .ok (arr', st') ∧
      countMatch (normalize_path "a.txt") arr' = 1 :=
  stage_file_unique ext0 "a.txt" "new" [mkEntry "a.txt" "aaff"]
    { dirs := [], entries := [] } (by decide) (by decide)

/-! ## C9 — rm deletes the path from the working tree -/

theorem bool_eq_false_of_not_true (b : Bool) (h : ¬ b = true) : b = false := by
  cases b with
  | false => rfl
  | true => exact absurd rfl h

/-- After the physical deletion step, no working-tree entry is the removed
path or lies beneath it, given the filesystem shape invariant (a path
that exists as a regular file has nothing beneath it). -/
theorem deleteWorktree_clean (p : String) (wt : List (String × Bytes))
    (hfs : (lookupA wt p).isSome = true →
      ∀ e ∈ wt, (((p ++ "/").data).isPrefixOf e.1.data) = false) :
    ∀ e ∈ deleteWorktree p wt,
      e.1 ≠ p ∧ (((p ++ "/").data).isPrefixOf e.1.data) = false := by
  by_cases hf : (lookupA wt p).isSome = true
  · rw [deleteWorktree, if_pos hf]
    intro e he
    have hmem := (List.mem_filter.mp he).1
    have hpred := (List.mem_filter.mp he).2
    exact ⟨by simpa using hpred, hfs hf e hmem⟩
  · have hnone : lookupA wt p = none := by
      cases h : lookupA wt p with
      | none => rfl
      | some v => rw [h] at hf; simp at hf
    rw [deleteWorktree, if_neg hf]
    by_cases hd : wt.any (fun e => ((p ++ "/").data).isPrefixOf e.1.data) = true
    · rw [if_pos hd]
      intro e he
      have hmem := (List.mem_filter.mp he).1
      have hpred := (List.mem_filter.mp he).2
      refine ⟨lookupA_eq_none_forall wt p hnone e hmem, ?_⟩
      simpa using hpred
    · rw [if_neg hd]
      intro e he
      refine ⟨lookupA_eq_none_forall wt p hnone e he, ?_⟩
      have hall := List.any_eq_false.mp (bool_eq_false_of_not_true _ hd) e he
      exact bool_eq_false_of_not_true _ hall

/-- C9: when `p` is staged, `rm p` succeeds, and afterwards the working
tree holds neither a file at `p` nor any file beneath the directory `p`
(a regular file is removed, a directory tree recursively), and the
persisted index is the original one with every entry for `p` dropped.
The hypothesis `hfs` is the filesystem shape invariant: if `p` exists as
a regular file, nothing exists beneath `p` as a directory. -/
theorem rm_removes_path (E : Ext) (p : String) (s : RepoState)
    (c0 : String) (j0 : Json)
    (hinit : s.initialized = true)
    (hidx : s.indexFile = some c0)
    (hdes : E.deser c0 = some j0)
    (hstaged : (coerceArr j0).any (fun e => jAsStr (jGet e "path") == some p) = true)
    (hfs : (lookupA s.worktree p).isSome = true →
      ∀ e ∈ s.worktree, (((p ++ "/").data).isPrefixOf e.1.data) = false) :
    ∃ s', rm E p s = (.ok (), s') ∧
      (∀ e ∈ s'.worktree, e.1 ≠ p ∧ (((p ++ "/").data).isPrefixOf e.1.data) = false) ∧
      s'.indexFile = some (E.serPretty (.arr ((coerceArr j0).filter
        (fun e => !(jAsStr (jGet e "path") == some p))))) := by
  refine ⟨{ s with
              worktree := deleteWorktree p s.worktree,
              indexFile := some (E.serPretty (.arr ((coerceArr j0).filter
                (fun e => !(jAsStr (jGet e "path") == some p))))) }, ?_, ?_, rfl⟩
  · simp [rm, read_index, hinit, hidx, hdes, hstaged, write_index]
  · intro e he
    simp only at he
    exact deleteWorktree_clean p s.worktree hfs e he

/-- State with `dir/a.txt`, `dir/b.txt`, `keep.txt` on disk and `dir`
staged. -/
def s9 : RepoState :=
  { baseState with
    worktree := [("dir/a.txt", "x"), ("dir/b.txt", "y"), ("keep.txt", "z")],
    indexFile := some (serJ (.arr [mkEntry "dir" "aabb", mkEntry "keep.txt" "aacc"])) }

/-- C9 witness: removing the staged directory `dir` deletes its whole
subtree from the working tree and rewrites the index. -/
theorem rm_removes_path_witness :
    ∃ s', rm ext0 "dir" s9 = (.ok (), s') ∧
      (∀ e ∈ s'.worktree, e.1 ≠ "dir" ∧
        ((("dir" ++ "/").data).isPrefixOf e.1.data) = false) ∧
      s'.indexFile = some (ext0.serPretty (.arr
        ((coerceArr (.arr [mkEntry "dir" "aabb", mkEntry "keep.txt" "aacc"])).filter
          (fun e => !(jAsStr (jGet e "path") == some "dir"))))) :=
  rm_removes_path ext0 "dir" s9
    (serJ (.arr [mkEntry "dir" "aabb", mkEntry "keep.txt" "aacc"]))
    (.arr [mkEntry "dir" "aabb", mkEntry "keep.txt" "aacc"])
    rfl rfl rfl (by decide) (by decide)

/-! ## C10 — read_object panics on short digests, reachable via checkout -/

/-- C10: `read_object` splits every digest at index 2 unconditionally, so
any digest shorter than two characters is a panic (modeled as the
distinguished `panicked` outcome), not a returned error; and the panic is
reachable from the public `checkout`: switching to an existing branch
whose ref file is empty (unborn, as `init` creates it) passes the empty
commit id to `restore_working_dir`, which panics inside `read_object`
after HEAD has already been rewritten. -/
theorem checkout_unborn_panicked (E : Ext) (name : String) (s : RepoState)
    (st : ObjStore) (d : String)
    (hd : d.length < 2)
    (hinit : s.initialized = true)
    (hb : (list_branches s).contains name = true)
    (hcur : get_current_branch s ≠ name)
    (hunborn : lookupA s.branches name = some "") :
    read_object d st = .error .panicked ∧
    checkout E name s =
      (.error .panicked, { s with headFile := some ("ref: refs/heads/" ++ name) }) := by
  constructor
  · unfold read_object
    rw [if_pos hd]
  · have hrb : read_branch_commit name s = .ok "" := by
      simp [read_branch_commit, hunborn]
      rfl
    have hro : ∀ st' : ObjStore, read_object "" st' = .error .panicked := by
      intro st'
      unfold read_object
      rw [if_pos (show ("" : String).length < 2 by decide)]
    have hmem : name ∈ list_branches s := by simpa using hb
    simp [checkout, checkout_branch, hinit, hb, hmem, hcur, hrb,
      restore_working_dir, hro]

/-- State whose `feature` branch is unborn while `master` is current. -/
def s10 : RepoState :=
  { baseState with branches := [("master", "aabb"), ("feature", "")] }

/-- C10 witness. -/
theorem checkout_unborn_panicked_witness :
    read_object "" { dirs := [], entries := [] } = .error .panicked ∧
    checkout ext0 "feature" s10 =
      (.error .panicked, { s10 with headFile := some ("ref: refs/heads/" ++ "feature") }) :=
  checkout_unborn_panicked ext0 "feature" s10 { dirs := [], entries := [] } ""
    (by decide) rfl (by decide) (by decide) rfl

/-! ## C1 machinery -/

/-- The bucket-directory list after a successful `store_object`. -/
def storeDirs (hash : String) (st : ObjStore) : List String :=
  if st.dirs.contains (String.mk (hash.data.take 2)) then st.dirs
  else String.mk (hash.data.take 2) :: st.dirs

/-- The store after a successful `store_object`. -/
def storedObj (hash : String) (content : Bytes) (st : ObjStore) : ObjStore :=
  { dirs := storeDirs hash st,
    entries := setAssoc st.entries (objKey hash) content }

theorem store_object_ok (hash : String) (content : Bytes) (st : ObjStore)
    (hlen : 2 ≤ hash.length) :
    store_object hash content st = .ok (storedObj hash content st) := by
  unfold store_object storedObj storeDirs
  rw [if_neg (by omega)]

theorem read_object_ok_of_isSome (hash : String) (st : ObjStore)
    (hlen : 2 ≤ hash.length)
    (h : (lookupA st.entries (objKey hash)).isSome = true) :
    ∃ b, read_object hash st = .ok b := by
  unfold read_object
  rw [if_neg (by omega)]
  obtain ⟨b, hb⟩ := Option.isSome_iff_exists.mp h
  rw [hb]
  exact ⟨b, rfl⟩

/-- `parse_commit` recovers the tree hash from the canonical commit text,
for any hash value free of newlines and surrounding whitespace that does
not itself start with `"tree "` (true of every hex digest). -/
theorem parse_commit_commitText (t : String) (ts : Int) (msg : String)
    (h1 : '\n' ∉ t.data)
    (h2 : trimL t.data = t.data)
    (h3 : ("tree ".data).isPrefixOf t.data = false) :
    parse_commit (commitText t ts msg) = .ok t := by
  have hnl : ("\n" : String).data = ['\n'] := rfl
  have hdata : (commitText t ts msg).data =
      ("tree ".data ++ t.data) ++ '\n' :: (commitMeta ts msg).data := by
    show ("tree " ++ t ++ "\n" ++ commitMeta ts msg).data = _
    rw [String.data_append, String.data_append, String.data_append, hnl]
    simp [List.append_assoc]
  have hns : '\n' ∉ "tree ".data ++ t.data := by
    intro hmem
    rcases List.mem_append.mp hmem with hm | hm
    · have hno : '\n' ∉ "tree ".data := by decide
      exact hno hm
    · exact h1 hm
  unfold parse_commit
  rw [hdata, splitOnCh_append_cons _ _ _ hns,
    List.find?_cons_of_pos _ (isPrefixOf_append_self ("tree ".data) t.data)]
  show Except.ok (String.mk (trimL (dropPrefixAll ("tree ".data)
    ("tree ".data ++ t.data)))) = Except.ok t
  rw [dropPrefixAll_append _ _ (by decide),
    dropPrefixAll_of_neg _ _ (fun hc => by
      have hc2 := hc.2
      rw [h3] at hc2
      exact absurd hc2 (by decide)),
    h2]

/-- Restore steps compose: a successful prefix threads its working tree
into the rest. -/
theorem restoreEntries_append_ok (as bs : List Json) (st : ObjStore)
    (wt w1 : List (String × Bytes))
    (h : restoreEntries as st wt = (.ok (), w1)) :
    restoreEntries (as ++ bs) st wt = restoreEntries bs st w1 := by
  induction as generalizing wt with
  | nil =>
    simp only [restoreEntries] at h
    have : wt = w1 := congrArg Prod.snd h
    rw [List.nil_append, this]
  | cons e rest ih =>
    simp only [restoreEntries, List.cons_append] at h ⊢
    cases hp : jAsStr (jGet e "path") with
    | none => rw [hp] at h; simp at h
    | some relPath =>
      rw [hp] at h
      simp only at h ⊢
      cases hh : jAsStr (jGet e "hash") with
      | none => rw [hh] at h; simp at h
      | some fileHash =>
        rw [hh] at h
        simp only at h ⊢
        cases hr : read_object fileHash st with
        | error er => rw [hr] at h; simp at h
        | ok content =>
          rw [hr] at h
          simp only at h ⊢
          exact ih _ h

/-- Restoring entries none of which is for path `nf` succeeds (when each
resolves in the store) and leaves the file at `nf` unchanged. -/
theorem restoreEntries_skip (nf : String) (st : ObjStore) :
    ∀ (as : List Json) (wt : List (String × Bytes)),
    (∀ e ∈ as, ∃ p hs b, jAsStr (jGet e "path") = some p ∧ p ≠ nf ∧
      jAsStr (jGet e "hash") = some hs ∧ read_object hs st = .ok b) →
    ∃ w1, restoreEntries as st wt = (.ok (), w1) ∧
      lookupA w1 nf = lookupA wt nf := by
  intro as
  induction as with
  | nil => intro wt h; exact ⟨wt, rfl, rfl⟩
  | cons e rest ih =>
    intro wt h
    obtain ⟨p, hs, b, hp, hpne, hh, hr⟩ := h e (List.mem_cons_self e rest)
    obtain ⟨w1, hrec, hlook⟩ :=
      ih (setAssoc wt p b) (fun e' he' => h e' (List.mem_cons_of_mem e he'))
    refine ⟨w1, ?_, ?_⟩
    · simp only [restoreEntries, hp, hh, hr]
      exact hrec
    · rw [hlook, lookupA_setAssoc_ne wt nf p b (Ne.symm hpne)]

theorem stageEntry_isEmpty (p h : String) (es : List Json) :
    (stageEntry p h es).isEmpty = false := by
  cases es with
  | nil => simp [stageEntry]
  | cons e rest =>
    by_cases hm : jAsStr (jGet e "path") = some p <;> simp [stageEntry, hm]

/-- Decomposition of the staged index: exactly one entry for `p` (with the
new digest as its hash), every other entry drawn unchanged from the old
index and not for `p`. -/
theorem stageEntry_decomp (p h : String) (es : List Json)
    (hc : countMatch p es ≤ 1) :
    ∃ pre fe post,
      stageEntry p h es = pre ++ fe :: post ∧
      jAsStr (jGet fe "path") = some p ∧
      jAsStr (jGet fe "hash") = some h ∧
      (∀ e ∈ pre, e ∈ es ∧ jAsStr (jGet e "path") ≠ some p) ∧
      (∀ e ∈ post, e ∈ es ∧ jAsStr (jGet e "path") ≠ some p) := by
  induction es with
  | nil =>
    refine ⟨[], mkEntry p h, [], by simp [stageEntry], ?_, ?_, by simp, by simp⟩
    · simp [mkEntry, jGet, jAsStr, lookupA]
    · simp [mkEntry, jGet, jAsStr, lookupA]
  | cons e rest ih =>
    by_cases hm : jAsStr (jGet e "path") = some p
    · have hrest0 : countMatch p rest = 0 := by
        have hstep : countMatch p (e :: rest) = countMatch p rest + 1 := by
          simp [countMatch, List.countP_cons, hm]
        omega
      have hnomatch : ∀ e' ∈ rest, jAsStr (jGet e' "path") ≠ some p := by
        intro e' he'
        have := List.countP_eq_zero.mp hrest0 e' he'
        simpa using this
      refine ⟨[], jSetField e "hash" (.str h), rest, ?_, jSetField_path e p h hm,
        jSetField_hash e p h hm, by simp, ?_⟩
      · simp [stageEntry, hm]
      · intro e' he'
        exact ⟨List.mem_cons_of_mem e he', hnomatch e' he'⟩
    · have hc' : countMatch p rest ≤ 1 := by
        have hstep : countMatch p (e :: rest) = countMatch p rest := by
          simp [countMatch, List.countP_cons, hm]
        omega
      obtain ⟨pre, fe, post, heq, hfp, hfh, hpre, hpost⟩ := ih hc'
      refine ⟨e :: pre, fe, post, ?_, hfp, hfh, ?_, ?_⟩
      · simp [stageEntry, hm, heq]
      · intro e' he'
        rcases List.mem_cons.mp he' with he'' | he''
        · subst he''; exact ⟨List.mem_cons_self _ _, hm⟩
        · obtain ⟨hmem, hne⟩ := hpre e' he''
          exact ⟨List.mem_cons_of_mem e hmem, hne⟩
      · intro e' he'
        obtain ⟨hmem, hne⟩ := hpost e' he'
        exact ⟨List.mem_cons_of_mem e hmem, hne⟩

/-! ## C1 — end-to-end round trip -/

/-- C1: for any file `f` with content `C` inside the repository, staging
`f` (`add`), committing, then restoring the working tree from the
returned commit id (`restore_working_dir`) writes content `C` back to
path `f`.  The state hypotheses are the documented invariants (a
normalized path, at most one pre-existing index entry for `f`, stale
entries well-formed and resolvable in the object store); the hypotheses
on `E` are the contracts of SHA-1 and serde_json the source relies on
(digests at least two characters of newline-free untrimmable non-`tree `
text, no collision among the three objects written here, deserialization
inverting serialization). -/
theorem round_trip (E : Ext) (ts : Int) (msg f : String) (C : Bytes)
    (c0 : String) (es0 : List Json) (s : RepoState)
    (hinit : s.initialized = true)
    (hfile : lookupA s.worktree f = some C)
    (hidx : s.indexFile = some c0)
    (hdes : E.deser c0 = some (.arr es0))
    (hnorm : normalize_path f = f)
    (hcnt : countMatch f es0 ≤ 1)
    (hstale : ∀ e ∈ es0, jAsStr (jGet e "path") ≠ some f →
      ∃ p hs, jAsStr (jGet e "path") = some p ∧
        jAsStr (jGet e "hash") = some hs ∧ 2 ≤ hs.length ∧
        (lookupA s.store.entries (objKey hs)).isSome = true)
    (hlenC : 2 ≤ (E.h C).length)
    (hlenT : 2 ≤ (E.h (E.ser (.arr (stageEntry f (E.h C) es0)))).length)
    (hlenK : 2 ≤ (E.h (commitText (E.h (E.ser (.arr (stageEntry f (E.h C) es0)))) ts msg)).length)
    (hre : E.deser (E.serPretty (.arr (stageEntry f (E.h C) es0))) =
      some (.arr (stageEntry f (E.h C) es0)))
    (hser : E.deser (E.ser (.arr (stageEntry f (E.h C) es0))) =
      some (.arr (stageEntry f (E.h C) es0)))
    (ht1 : '\n' ∉ (E.h (E.ser (.arr (stageEntry f (E.h C) es0)))).data)
    (ht2 : trimL (E.h (E.ser (.arr (stageEntry f (E.h C) es0)))).data =
      (E.h (E.ser (.arr (stageEntry f (E.h C) es0)))).data)
    (ht3 : ("tree ".data).isPrefixOf
      (E.h (E.ser (.arr (stageEntry f (E.h C) es0)))).data = false)
    (hne1 : E.h (E.ser (.arr (stageEntry f (E.h C) es0))) ≠
      E.h (commitText (E.h (E.ser (.arr (stageEntry f (E.h C) es0)))) ts msg))
    (hne2 : E.h C ≠
      E.h (commitText (E.h (E.ser (.arr (stageEntry f (E.h C) es0)))) ts msg))
    (hne3 : E.h C ≠ E.h (E.ser (.arr (stageEntry f (E.h C) es0)))) :
    ∃ s₁ c s₂ s₃,
      add E f s = (.ok (), s₁) ∧
      commit E ts msg s₁ = (.ok c, s₂) ∧
      restore_working_dir E c.id s₂ = (.ok (), s₃) ∧
      lookupA s₃.worktree f = some C := by
  have hnotC : ¬ (E.h C).length < 2 := by omega
  have hnotT : ¬ (E.h (E.ser (.arr (stageEntry f (E.h C) es0)))).length < 2 := by omega
  have hnotK : ¬ (E.h (commitText (E.h (E.ser (.arr (stageEntry f (E.h C) es0)))) ts msg)).length < 2 := by
    omega
  -- Step 1: add stages the blob and rewrites the index.
  have h1 : read_index E s = .ok (.arr es0) := by simp [read_index, hidx, hdes]
  have hso1 := store_object_ok (E.h C) C s.store hlenC
  have hadd : add E f s = (.ok (),
      { s with store := storedObj (E.h C) C s.store,
               indexFile := some (E.serPretty (.arr (stageEntry f (E.h C) es0))) }) := by
    simp [add, hinit, h1, is_repo_file, hfile, coerceArr, add_single_file, hso1,
      hnorm, write_index]
  -- Step 2: commit stores the tree and the commit record.
  have h2 : read_index E
      { s with store := storedObj (E.h C) C s.store,
               indexFile := some (E.serPretty (.arr (stageEntry f (E.h C) es0))) } =
      .ok (.arr (stageEntry f (E.h C) es0)) := by
    simp [read_index, hre]
  have hso2 := store_object_ok (E.h (E.ser (.arr (stageEntry f (E.h C) es0))))
    (E.ser (.arr (stageEntry f (E.h C) es0))) (storedObj (E.h C) C s.store) hlenT
  have hso3 := store_object_ok
    (E.h (commitText (E.h (E.ser (.arr (stageEntry f (E.h C) es0)))) ts msg))
    (commitText (E.h (E.ser (.arr (stageEntry f (E.h C) es0)))) ts msg)
    (storedObj (E.h (E.ser (.arr (stageEntry f (E.h C) es0))))
      (E.ser (.arr (stageEntry f (E.h C) es0))) (storedObj (E.h C) C s.store)) hlenK
  have hcommit : commit E ts msg
      { s with store := storedObj (E.h C) C s.store,
               indexFile := some (E.serPretty (.arr (stageEntry f (E.h C) es0))) } =
      (.ok { id := E.h (commitText (E.h (E.ser (.arr (stageEntry f (E.h C) es0)))) ts msg),
             message := msg, author := "RustGit <rustgit@example.com>",
             timestamp := ts,
             tree_hash := E.h (E.ser (.arr (stageEntry f (E.h C) es0))) },
       save_commit E
         { id := E.h (commitText (E.h (E.ser (.arr (stageEntry f (E.h C) es0)))) ts msg),
           message := msg, author := "RustGit <rustgit@example.com>",
           timestamp := ts,
           tree_hash := E.h (E.ser (.arr (stageEntry f (E.h C) es0))) }
         { s with
             store := storedObj
               (E.h (commitText (E.h (E.ser (.arr (stageEntry f (E.h C) es0)))) ts msg))
               (commitText (E.h (E.ser (.arr (stageEntry f (E.h C) es0)))) ts msg)
               (storedObj (E.h (E.ser (.arr (stageEntry f (E.h C) es0))))
                 (E.ser (.arr (stageEntry f (E.h C) es0)))
                 (storedObj (E.h C) C s.store)),
             indexFile := some (E.serPretty (.arr (stageEntry f (E.h C) es0))) }) := by
    simp only [hinit] at h2
    simp [commit, hinit, h2, stageEntry_isEmpty, create_commit, generate_tree_hash,
      hso2, hso3]
  -- Step 3: reading the three objects back out of the final store.
  have hread1 : read_object
      (E.h (commitText (E.h (E.ser (.arr (stageEntry f (E.h C) es0)))) ts msg))
      (storedObj (E.h (commitText (E.h (E.ser (.arr (stageEntry f (E.h C) es0)))) ts msg))
        (commitText (E.h (E.ser (.arr (stageEntry f (E.h C) es0)))) ts msg)
        (storedObj (E.h (E.ser (.arr (stageEntry f (E.h C) es0))))
          (E.ser (.arr (stageEntry f (E.h C) es0)))
          (storedObj (E.h C) C s.store))) =
      .ok (commitText (E.h (E.ser (.arr (stageEntry f (E.h C) es0)))) ts msg) := by
    unfold read_object
    rw [if_neg hnotK]
    simp [storedObj, lookupA_setAssoc_self]
  have hkey1 : objKey (E.h (E.ser (.arr (stageEntry f (E.h C) es0)))) ≠
      objKey (E.h (commitText (E.h (E.ser (.arr (stageEntry f (E.h C) es0)))) ts msg)) :=
    fun hEq => hne1 (objKey_inj _ _ hEq)
  have hread2 : read_object (E.h (E.ser (.arr (stageEntry f (E.h C) es0))))
      (storedObj (E.h (commitText (E.h (E.ser (.arr (stageEntry f (E.h C) es0)))) ts msg))
        (commitText (E.h (E.ser (.arr (stageEntry f (E.h C) es0)))) ts msg)
        (storedObj (E.h (E.ser (.arr (stageEntry f (E.h C) es0))))
          (E.ser (.arr (stageEntry f (E.h C) es0)))
          (storedObj (E.h C) C s.store))) =
      .ok (E.ser (.arr (stageEntry f (E.h C) es0))) := by
    unfold read_object
    rw [if_neg hnotT]
    simp [storedObj, lookupA_setAssoc_ne _ _ _ _ hkey1, lookupA_setAssoc_self]
  have hkey2 : objKey (E.h C) ≠
      objKey (E.h (commitText (E.h (E.ser (.arr (stageEntry f (E.h C) es0)))) ts msg)) :=
    fun hEq => hne2 (objKey_inj _ _ hEq)
  have hkey3 : objKey (E.h C) ≠ objKey (E.h (E.ser (.arr (stageEntry f (E.h C) es0)))) :=
    fun hEq => hne3 (objKey_inj _ _ hEq)
  have hreadC : read_object (E.h C)
      (storedObj (E.h (commitText (E.h (E.ser (.arr (stageEntry f (E.h C) es0)))) ts msg))
        (commitText (E.h (E.ser (.arr (stageEntry f (E.h C) es0)))) ts msg)
        (storedObj (E.h (E.ser (.arr (stageEntry f (E.h C) es0))))
          (E.ser (.arr (stageEntry f (E.h C) es0)))
          (storedObj (E.h C) C s.store))) = .ok C := by
    unfold read_object
    rw [if_neg hnotC]
    simp [storedObj, lookupA_setAssoc_ne _ _ _ _ hkey2,
      lookupA_setAssoc_ne _ _ _ _ hkey3, lookupA_setAssoc_self]
  have hpc := parse_commit_commitText (E.h (E.ser (.arr (stageEntry f (E.h C) es0))))
    ts msg ht1 ht2 ht3
  have hpt : parse_tree E (E.h (E.ser (.arr (stageEntry f (E.h C) es0))))
      (storedObj (E.h (commitText (E.h (E.ser (.arr (stageEntry f (E.h C) es0)))) ts msg))
        (commitText (E.h (E.ser (.arr (stageEntry f (E.h C) es0)))) ts msg)
        (storedObj (E.h (E.ser (.arr (stageEntry f (E.h C) es0))))
          (E.ser (.arr (stageEntry f (E.h C) es0)))
          (storedObj (E.h C) C s.store))) =
      .ok (.arr (stageEntry f (E.h C) es0)) := by
    simp [parse_tree, hread2, hser]
  -- Step 4: every stale entry still resolves in the final store.
  have hgood3 : ∀ e ∈ es0, jAsStr (jGet e "path") ≠ some f →
      ∃ p hs b, jAsStr (jGet e "path") = some p ∧ p ≠ f ∧
        jAsStr (jGet e "hash") = some hs ∧
        read_object hs
          (storedObj (E.h (commitText (E.h (E.ser (.arr (stageEntry f (E.h C) es0)))) ts msg))
            (commitText (E.h (E.ser (.arr (stageEntry f (E.h C) es0)))) ts msg)
            (storedObj (E.h (E.ser (.arr (stageEntry f (E.h C) es0))))
              (E.ser (.arr (stageEntry f (E.h C) es0)))
              (storedObj (E.h C) C s.store))) = .ok b := by
    intro e he hnm
    obtain ⟨p, hs, hp, hh, hlen2, hsome⟩ := hstale e he hnm
    have hpne : p ≠ f := fun hEq => hnm (by rw [hp, hEq])
    have hsome3 : (lookupA
        (storedObj (E.h (commitText (E.h (E.ser (.arr (stageEntry f (E.h C) es0)))) ts msg))
          (commitText (E.h (E.ser (.arr (stageEntry f (E.h C) es0)))) ts msg)
          (storedObj (E.h (E.ser (.arr (stageEntry f (E.h C) es0))))
            (E.ser (.arr (stageEntry f (E.h C) es0)))
            (storedObj (E.h C) C s.store))).entries (objKey hs)).isSome = true := by
      simp only [storedObj]
      exact isSome_lookupA_setAssoc _ _ _ _
        (isSome_lookupA_setAssoc _ _ _ _ (isSome_lookupA_setAssoc _ _ _ _ hsome))
    obtain ⟨b, hb⟩ := read_object_ok_of_isSome hs _ hlen2 hsome3
    exact ⟨p, hs, b, hp, hpne, hh, hb⟩
  -- Step 5: run the restore loop.
  obtain ⟨pre, fe, post, hsplit, hfp, hfh, hpre, hpost⟩ :=
    stageEntry_decomp f (E.h C) es0 hcnt
  have hpreG := fun e he => (hpre e he).2 |> (fun hnm => hgood3 e (hpre e he).1 hnm)
  have hpostG := fun e he => (hpost e he).2 |> (fun hnm => hgood3 e (hpost e he).1 hnm)
  obtain ⟨w1, hr1, hl1⟩ := restoreEntries_skip f
    (storedObj (E.h (commitText (E.h (E.ser (.arr (stageEntry f (E.h C) es0)))) ts msg))
      (commitText (E.h (E.ser (.arr (stageEntry f (E.h C) es0)))) ts msg)
      (storedObj (E.h (E.ser (.arr (stageEntry f (E.h C) es0))))
        (E.ser (.arr (stageEntry f (E.h C) es0)))
        (storedObj (E.h C) C s.store))) pre s.worktree hpreG
  have hcomp := restoreEntries_append_ok pre (fe :: post) _ s.worktree w1 hr1
  have hstep : restoreEntries (fe :: post)
      (storedObj (E.h (commitText (E.h (E.ser (.arr (stageEntry f (E.h C) es0)))) ts msg))
        (commitText (E.h (E.ser (.arr (stageEntry f (E.h C) es0)))) ts msg)
        (storedObj (E.h (E.ser (.arr (stageEntry f (E.h C) es0))))
          (E.ser (.arr (stageEntry f (E.h C) es0)))
          (storedObj (E.h C) C s.store))) w1 =
      restoreEntries post
        (storedObj (E.h (commitText (E.h (E.ser (.arr (stageEntry f (E.h C) es0)))) ts msg))
          (commitText (E.h (E.ser (.arr (stageEntry f (E.h C) es0)))) ts msg)
          (storedObj (E.h (E.ser (.arr (stageEntry f (E.h C) es0))))
            (E.ser (.arr (stageEntry f (E.h C) es0)))
            (storedObj (E.h C) C s.store))) (setAssoc w1 f C) := by
    simp only [restoreEntries, hfp, hfh, hreadC]
  obtain ⟨w2, hr2, hl2⟩ := restoreEntries_skip f
    (storedObj (E.h (commitText (E.h (E.ser (.arr (stageEntry f (E.h C) es0)))) ts msg))
      (commitText (E.h (E.ser (.arr (stageEntry f (E.h C) es0)))) ts msg)
      (storedObj (E.h (E.ser (.arr (stageEntry f (E.h C) es0))))
        (E.ser (.arr (stageEntry f (E.h C) es0)))
        (storedObj (E.h C) C s.store))) post (setAssoc w1 f C) hpostG
  have hreAll : restoreEntries (stageEntry f (E.h C) es0)
      (storedObj (E.h (commitText (E.h (E.ser (.arr (stageEntry f (E.h C) es0)))) ts msg))
        (commitText (E.h (E.ser (.arr (stageEntry f (E.h C) es0)))) ts msg)
        (storedObj (E.h (E.ser (.arr (stageEntry f (E.h C) es0))))
          (E.ser (.arr (stageEntry f (E.h C) es0)))
          (storedObj (E.h C) C s.store))) s.worktree = (.ok (), w2) := by
    have hcast := congrArg (fun l => restoreEntries l
      (storedObj (E.h (commitText (E.h (E.ser (.arr (stageEntry f (E.h C) es0)))) ts msg))
        (commitText (E.h (E.ser (.arr (stageEntry f (E.h C) es0)))) ts msg)
        (storedObj (E.h (E.ser (.arr (stageEntry f (E.h C) es0))))
          (E.ser (.arr (stageEntry f (E.h C) es0)))
          (storedObj (E.h C) C s.store))) s.worktree) hsplit
    simp only at hcast
    exact hcast.trans (hcomp.trans (hstep.trans hr2))
  have hlw2 : lookupA w2 f = some C := by
    rw [hl2, lookupA_setAssoc_self]
  -- Step 6: assemble restore_working_dir.
  have hrwd : restore_working_dir E
      (E.h (commitText (E.h (E.ser (.arr (stageEntry f (E.h C) es0)))) ts msg))
      (save_commit E
        { id := E.h (commitText (E.h (E.ser (.arr (stageEntry f (E.h C) es0)))) ts msg),
          message := msg, author := "RustGit <rustgit@example.com>",
          timestamp := ts,
          tree_hash := E.h (E.ser (.arr (stageEntry f (E.h C) es0))) }
        { s with
            store := storedObj
              (E.h (commitText (E.h (E.ser (.arr (stageEntry f (E.h C) es0)))) ts msg))
              (commitText (E.h (E.ser (.arr (stageEntry f (E.h C) es0)))) ts msg)
              (storedObj (E.h (E.ser (.arr (stageEntry f (E.h C) es0))))
                (E.ser (.arr (stageEntry f (E.h C) es0)))
                (storedObj (E.h C) C s.store)),
            indexFile := some (E.serPretty (.arr (stageEntry f (E.h C) es0))) }) =
      (.ok (), { (save_commit E
        { id := E.h (commitText (E.h (E.ser (.arr (stageEntry f (E.h C) es0)))) ts msg),
          message := msg, author := "RustGit <rustgit@example.com>",
          timestamp := ts,
          tree_hash := E.h (E.ser (.arr (stageEntry f (E.h C) es0))) }
        { s with
            store := storedObj
              (E.h (commitText (E.h (E.ser (.arr (stageEntry f (E.h C) es0)))) ts msg))
              (commitText (E.h (E.ser (.arr (stageEntry f (E.h C) es0)))) ts msg)
              (storedObj (E.h (E.ser (.arr (stageEntry f (E.h C) es0))))
                (E.ser (.arr (stageEntry f (E.h C) es0)))
                (storedObj (E.h C) C s.store)),
            indexFile := some (E.serPretty (.arr (stageEntry f (E.h C) es0))) })
        with worktree := w2 }) := by
    simp [restore_working_dir, save_commit, hread1, hpc, hpt, hreAll]
  exact ⟨_, _, _, _, hadd, hcommit, hrwd, hlw2⟩

/-- State with the single file `a.txt` containing `"hi"` and an empty
index. -/
def sW : RepoState := { baseState with worktree := [("a.txt", "hi")] }

/-- C1 witness: add `a.txt`, commit, restore from the returned commit id,
and find `"hi"` back at `a.txt`. -/
theorem round_trip_witness :
    ∃ s₁ c s₂ s₃,
      add ext0 "a.txt" sW = (.ok (), s₁) ∧
      commit ext0 5 "m" s₁ = (.ok c, s₂) ∧
      restore_working_dir ext0 c.id s₂ = (.ok (), s₃) ∧
      lookupA s₃.worktree "a.txt" = some "hi" :=
  round_trip ext0 5 "m" "a.txt" "hi" "a0:" [] sW rfl rfl rfl rfl rfl
    (by decide) (by simp) (by decide) (by decide) (by decide) rfl rfl
    (by decide) (by decide) (by decide) (by decide) (by decide) (by decide)

end RustGit
